import Mathlib

/-
Verification of the federated query/aggregation/materialization core of the
optimade_database_server repository, as a shallow embedding in Lean.

Strings are modelled as Lean `String`/`List Char`.  Python whitespace handling
(`str.strip`, `str.split`, regex `\s`) is modelled over the ASCII whitespace
characters, which is exact for the data this code processes.  External
collaborators (the OPTIMADE network client, the CIF converter, the filesystem,
`datetime`/`hashlib`) are modelled as explicit parameters / per-record outcome
fields; side effects of the tool-surface operations are reified as an explicit
trace of `Effect` values.
-/

/-! ## Python string primitives -/

/-- ASCII whitespace, the characters Python's `str.strip()`/`str.split()` and
the regex class `\s` treat as whitespace on the inputs this program handles. -/
def pyWs (c : Char) : Bool :=
  c == ' ' || c == '\t' || c == '\n' || c == '\r' || c == Char.ofNat 11 || c == Char.ofNat 12

/-- The apostrophe character, written via its code point. -/
def quoteCh : Char := Char.ofNat 39

/-- Python `str.strip()` on a character list: drop whitespace from both ends. -/
def pyStripL (l : List Char) : List Char :=
  ((l.dropWhile pyWs).reverse.dropWhile pyWs).reverse

/-- Python `str.strip()`. -/
def pyStrip (s : String) : String :=
  String.mk (pyStripL s.data)

/-- Python `str.strip(ch)` for a single character argument. -/
def stripCharL (a : Char) (l : List Char) : List Char :=
  ((l.dropWhile (fun c => c == a)).reverse.dropWhile (fun c => c == a)).reverse

/-- Python `str.replace(a, b)` for single characters. -/
def chReplace (a b : Char) (l : List Char) : List Char :=
  l.map (fun c => if c = a then b else c)

/-- Python `str.replace(a, "")` for a single character: remove it. -/
def chRemove (a : Char) (l : List Char) : List Char :=
  l.filter (fun c => c ≠ a)

/-- Python `sep.join(strs)`. -/
def joinSep (sep : String) : List String → String
  | [] => ""
  | [x] => x
  | x :: y :: rest => x ++ sep ++ joinSep sep (y :: rest)

/-- Lexicographic code-point comparison of character lists, the order Python
uses on strings. -/
def charListLe : List Char → List Char → Bool
  | [], _ => true
  | _ :: _, [] => false
  | a :: as, b :: bs => if a < b then true else if a = b then charListLe as bs else false

/-- Python string comparison `x <= y`. -/
def strLe (x y : String) : Bool := charListLe x.data y.data

/-- Insert a string into a sorted list (for modelling Python `sorted`). -/
def sortInsert (x : String) : List String → List String
  | [] => [x]
  | y :: rest => if strLe x y then x :: y :: rest else y :: sortInsert x rest

/-- Python `sorted(list_of_strings)`. -/
def pySorted : List String → List String
  | [] => []
  | x :: rest => sortInsert x (pySorted rest)

/-- Python `sorted(list(set(xs)))`: deduplicate, then sort. -/
def pySortedSet (l : List String) : List String :=
  pySorted l.dedup

/-! ## urllib.parse: the fragment of `urlparse` used by `_provider_name_from_url`

Only the `netloc` and `path` components are consumed by the code under
verification.  The model follows CPython's `urlsplit`: an optional scheme
(`alpha (alnum|+|-|.)* :`) is removed, the fragment is cut at the first `#`,
`netloc` is present only after a leading `//` and extends to the first of
`/ ? #`, and the query is cut at the first `?`. -/

/-- Valid characters of a URL scheme after the first. -/
def schemeBody (c : Char) : Bool :=
  c.isAlphanum || c == '+' || c == '-' || c == '.'

/-- CPython scheme validity: nonempty, starts with a letter, scheme chars after. -/
def validScheme : List Char → Bool
  | [] => false
  | c :: rest => c.isAlpha && rest.all schemeBody

/-- Remove a leading `scheme:` when present and valid. -/
def afterScheme (l : List Char) : List Char :=
  let pre := l.takeWhile (fun c => c ≠ ':')
  match l.dropWhile (fun c => c ≠ ':') with
  | _ :: rest => if validScheme pre then rest else l
  | [] => l

/-- True on the characters terminating a netloc. -/
def netlocEnd (c : Char) : Bool :=
  c == '/' || c == '?' || c == '#'

/-- Split `//netloc...` into netloc and the remainder; no `//` means no netloc. -/
def urlSplitNetloc : List Char → List Char × List Char
  | '/' :: '/' :: rest => (rest.takeWhile (fun c => !netlocEnd c), rest.dropWhile (fun c => !netlocEnd c))
  | l => ([], l)

/-- The `(netloc, path)` components of `urllib.parse.urlparse(url)`. -/
def urlparseNetlocPath (url : String) : List Char × List Char :=
  let rest := (afterScheme url.data).takeWhile (fun c => c ≠ '#')
  let np := urlSplitNetloc rest
  (np.1, np.2.takeWhile (fun c => c ≠ '?'))

/-! ## Optimade_Server/utils.py: saver helpers -/

/-- `_provider_name_from_url` (src/Optimade_Server/utils.py lines 96-102):
turn a provider URL into a filesystem-safe name. -/
def _provider_name_from_url (url : String) : String :=
  let parsed := urlparseNetlocPath url
  let netloc := chReplace '.' '_' parsed.1
  let path := chReplace '/' '_' (stripCharL '/' parsed.2)
  let nameL := if path = [] then netloc else netloc ++ '_' :: path
  let stripped := stripCharL '_' nameL
  if stripped = [] then "provider" else String.mk stripped

/-- Rendition of claim C3 as amended: dots are replaced with underscores in the
network-location component only, the path keeps its dots; the path is stripped
of leading/trailing slashes and its remaining slashes become underscores; the
two components are concatenated with an underscore separator when the path is
nonempty; leading/trailing underscores are stripped; the fallback is
`"provider"` when nothing remains. -/
def providerNameAmendedSpec (url : String) : String :=
  let netlocPart := chReplace '.' '_' (urlparseNetlocPath url).1
  let pathPart := chReplace '/' '_' (stripCharL '/' (urlparseNetlocPath url).2)
  match stripCharL '_' (netlocPart ++ (if pathPart = [] then [] else '_' :: pathPart)) with
  | [] => "provider"
  | c :: rest => String.mk (c :: rest)

/-! ## Optimade_Server/utils.py: filter_to_tag -/

/-- The sanitization pipeline of `filter_to_tag` before truncation
(src/Optimade_Server/utils.py lines 146-176): strip, drop quote characters,
space to underscore, comma to dash, drop equals signs, keep only
alphanumerics, underscores and dashes. -/
def filter_tag_core (filter_str : String) : List Char :=
  let t0 := pyStripL filter_str.data
  let t1 := chRemove quoteCh (chRemove '"' t0)
  let t2 := chRemove '=' (chReplace ',' '-' (chReplace ' ' '_' t1))
  t2.filter (fun c => c.isAlphanum || c == '_' || c == '-')

/-- `filter_to_tag` (src/Optimade_Server/utils.py lines 146-176); `max_len`
defaults to 30 at every call site. -/
def filter_to_tag (filter_str : String) (max_len : Nat) : String :=
  let tag := (filter_tag_core filter_str).take max_len
  if tag = [] then "filter" else String.mk tag

/-! ## Optimade_Server/utils.py: build_provider_filters -/

/-- `build_provider_filters` (src/Optimade_Server/utils.py lines 273-294):
combine a base OPTIMADE filter with per-provider clauses.  The per-provider
mapping is modelled as an association list in iteration order. -/
def build_provider_filters (base : Option String) (provider_map : List (String × String)) :
    List (String × String) :=
  let b := pyStrip (base.getD "")
  provider_map.filterMap (fun pc =>
    if pc.2 ≠ "" ∧ pyStrip pc.2 ≠ "" then
      some (pc.1,
        if b ≠ "" ∧ pyStrip pc.2 ≠ "" then "(" ++ b ++ ") AND (" ++ pyStrip pc.2 ++ ")"
        else if b ≠ "" then b else pyStrip pc.2)
    else none)

/-- The combination rule in the words of claim C5 (amended): the specific
clause alone when the base is empty, else both parenthesized and joined by
AND; stated over already-trimmed clause text. -/
def combineSpec (b c : String) : String :=
  if b = "" then c else "(" ++ b ++ ") AND (" ++ c ++ ")"

/-! ## Element filters (Optimade_Server/server.py and optimade_test/server.py) -/

/-- Python `f-string` quoting of one element symbol. -/
def quoteElem (e : String) : String := "\"" ++ e ++ "\""

/-- Python `', '.join(f-quoted elements)`. -/
def joinQuoted (es : List String) : String :=
  joinSep ", " (es.map quoteElem)

/-- The filter built by `fetch_structures_by_elements`
(src/Optimade_Server/server.py line 126): no validation of the symbols. -/
def element_filter_of (elements : List String) : String :=
  "elements HAS ALL " ++ joinQuoted elements

/-- `build_filter` (src/optimade_test/server.py lines 70-78).  The three
optional lists are modelled as lists; `None` and `[]` are both falsy in the
Python conditionals, so both are the empty list here. -/
def build_filter (elements_all elements_any elements_only : List String) : String :=
  let parts :=
    (if elements_all = [] then [] else ["elements HAS ALL " ++ joinQuoted elements_all]) ++
    (if elements_any = [] then [] else ["elements HAS ANY " ++ joinQuoted elements_any]) ++
    (if elements_only = [] then [] else ["elements HAS ONLY " ++ joinQuoted elements_only])
  if parts = [] then "elements HAS ANY \"Si\"" else joinSep " AND " parts

/-! ## Optimade_Server/utils.py: save_structures

A raw structure record is opaque to the saver; what the saver observes of it
is the outcome of the external CIF converter (`Structure(data).convert`, which
returns text or raises) and the outcome of the filesystem write for this
record (`Path.write_text`, which may raise).  Both collaborator outcomes are
carried on the record itself as `Except` values, with the exception detail as
the error string. -/

structure SRecord where
  cif : Except String String
  write : Except String Unit

/-- The aggregated response shape walked by `save_structures`: the value of
`results["structures"]`, a mapping filter-text to mapping provider-URL to a
record list (`content.get("data", [])`), in iteration order. -/
abbrev AggResults := List (String × List (String × List SRecord))

/-- The file name and path written for record `i` of a provider
(`output_folder / f"{provider_name}_{i}.{suffix}"`). -/
def recordFile (folder name : String) (asCif : Bool) (i : Nat) : String :=
  folder ++ "/" ++ name ++ "_" ++ toString i ++ "." ++ (if asCif then "cif" else "json")

/-- The per-record warning of `save_structures`
(`f"Failed to save structure from {provider_name} #{i}: {e}"`). -/
def failMsg (name : String) (i : Nat) (e : String) : String :=
  "Failed to save structure from " ++ name ++ " #" ++ toString i ++ ": " ++ e

/-- The body of the per-record `try` block of `save_structures` (lines
127-141): in CIF mode convert, reject empty or whitespace-only text with
`ValueError("CIF content is empty")`, then write; in JSON mode serialize and
write.  `Except.error` is the caught exception's message. -/
def saveOne (asCif : Bool) (r : SRecord) : Except String Unit :=
  if asCif then
    match r.cif with
    | .error e => .error e
    | .ok c => if (pyStrip c) = "" then .error "CIF content is empty" else r.write
  else r.write

/-- The record loop of `save_structures` for one provider, over the already
truncated record list, carrying the running index: returns the files written
and the warnings recorded, each in order. -/
def processRecords (folder name : String) (asCif : Bool) : Nat → List SRecord → List String × List String
  | _, [] => ([], [])
  | i, r :: rs =>
    let rest := processRecords folder name asCif (i + 1) rs
    match saveOne asCif r with
    | .ok _ => (recordFile folder name asCif i :: rest.1, rest.2)
    | .error e => (rest.1, failMsg name i e :: rest.2)

/-- The provider loop of `save_structures` within one filter key. -/
def saveProviders (folder : String) (maxResults : Nat) (asCif : Bool) :
    List (String × List SRecord) → List String × List String × List String
  | [] => ([], [], [])
  | (url, data) :: rest =>
    let name := _provider_name_from_url url
    let here := processRecords folder name asCif 0 (data.take maxResults)
    let there := saveProviders folder maxResults asCif rest
    (here.1 ++ there.1, here.2 ++ there.2.1, name :: there.2.2)

/-- `save_structures` (src/Optimade_Server/utils.py lines 104-143): walk the
aggregated results and write per-provider files; returns
`(files, warnings, providers_seen)`.  The `mkdir` side effect is reified by
the callers' traces. -/
def save_structures (results : AggResults) (folder : String) (maxResults : Nat) (asCif : Bool) :
    List String × List String × List String :=
  match results with
  | [] => ([], [], [])
  | (_, providerDict) :: rest =>
    let here := saveProviders folder maxResults asCif providerDict
    let there := save_structures rest folder maxResults asCif
    (here.1 ++ there.1, here.2.1 ++ there.2.1, here.2.2 ++ there.2.2)

/-- All `(provider_url, data)` entries visited by `save_structures`, in visit
order (flattening the filter-key level). -/
def flatProviders (results : AggResults) : List (String × List SRecord) :=
  results.flatMap (fun fp => fp.2)

/-- The files contributed by one provider entry: one file per retained record
whose conversion and write succeed, in input order, indexed from 0. -/
def providerFiles (folder : String) (cap : Nat) (asCif : Bool) (pu : String × List SRecord) :
    List String :=
  (pu.2.take cap).enum.filterMap (fun ir =>
    match saveOne asCif ir.2 with
    | .ok _ => some (recordFile folder (_provider_name_from_url pu.1) asCif ir.1)
    | .error _ => none)

/-- The warnings contributed by one provider entry: exactly one warning per
retained record whose save fails, in input order. -/
def providerWarnings (cap : Nat) (asCif : Bool) (pu : String × List SRecord) : List String :=
  (pu.2.take cap).enum.filterMap (fun ir =>
    match saveOne asCif ir.2 with
    | .ok _ => none
    | .error e => some (failMsg (_provider_name_from_url pu.1) ir.1 e))

/-- The number of retained records of one provider entry whose conversion or
write fails. -/
def providerFailures (cap : Nat) (asCif : Bool) (pu : String × List SRecord) : Nat :=
  (pu.2.take cap).countP (fun r => !(saveOne asCif r).isOk)

/-! ## Tool surface (optimade_test/server_direct_filter.py, Optimade_Server/server.py)

The network collaborator (`OptimadeClient(...).get`) is a parameter
`net : String → List String → Nat → Except String AggResults`; an `error`
models the exception caught by the tool.  The timestamp and the 8-character
filter hash are parameters standing for the `datetime`/`hashlib`
collaborators.  Side effects are reified in an ordered trace. -/

/-- Output format of the raw-filter tool. -/
inductive SFormat
  | cif
  | json
deriving DecidableEq, Repr

/-- The manifest object written to `summary.json` by
`fetch_structures_with_filter` (lines 131-140), field for field. -/
structure Manifest where
  filter : String
  providers_requested : List String
  providers_seen : List String
  files : List String
  warnings : List String
  format : SFormat
  max_results_per_provider : Nat
deriving DecidableEq, Repr

/-- Observable side effects of one tool invocation, in order. -/
inductive Effect
  | query (filter : String) (providers : List String) (cap : Nat)
  | mkdir (path : String)
  | writeSummary (path : String) (m : Manifest)
deriving DecidableEq, Repr

/-- The uniform result envelope of the raw-filter tool. -/
structure FetchResult where
  output_dir : String
  files : List String
  providers_used : List String
  filter : String
  warnings : List String
deriving DecidableEq, Repr

/-- The module-level `DEFAULT_PROVIDERS` of the two server modules (a Python
set literal of nine provider keys). -/
def DEFAULT_PROVIDERS_SRV : List String :=
  ["alexandria", "cmr", "mp", "mpds", "nmd", "odbx", "omdb", "oqmd", "jarvis"]

/-- `used_providers = set(providers) if providers else DEFAULT_PROVIDERS`:
`None` and the empty list both select the default set. -/
def usedProviders (providers : Option (List String)) : List String :=
  match providers with
  | some (p :: ps) => p :: ps
  | _ => DEFAULT_PROVIDERS_SRV

/-- `fetch_structures_with_filter`
(src/optimade_test/server_direct_filter.py lines 57-148), returning the
envelope together with the effect trace.  `ts` and `short` model the
timestamp and the sha1-derived short hash used in the folder name. -/
def fetch_structures_with_filter
    (net : String → List String → Nat → Except String AggResults)
    (ts short : String) (filter : String) (as_format : SFormat)
    (max_results_per_provider : Nat) (providers : Option (List String)) :
    FetchResult × List Effect :=
  let filt := pyStrip filter
  if filt = "" then
    ({ output_dir := "", files := [], providers_used := [], filter := "",
       warnings := ["[raw] empty filter string"] }, [])
  else
    let used := usedProviders providers
    match net filt used max_results_per_provider with
    | .error e =>
      ({ output_dir := "", files := [], providers_used := pySortedSet used, filter := filt,
         warnings := ["[raw] fetch failed: " ++ e] },
       [.query filt used max_results_per_provider])
    | .ok results =>
      let out_folder := "materials_data/rawfilter_" ++ ts ++ "_" ++ short
      let saved := save_structures results out_folder max_results_per_provider (as_format == SFormat.cif)
      let manifest : Manifest :=
        { filter := filt, providers_requested := pySortedSet used,
          providers_seen := saved.2.2, files := saved.1, warnings := saved.2.1,
          format := as_format, max_results_per_provider := max_results_per_provider }
      ({ output_dir := out_folder, files := saved.1, providers_used := pySortedSet saved.2.2,
         filter := filt, warnings := saved.2.1 },
       [.query filt used max_results_per_provider, .mkdir out_folder,
        .writeSummary (out_folder ++ "/summary.json") manifest])

/-- The result shape of the two tools in src/Optimade_Server/server.py. -/
structure OutDirResult where
  output_dir : String
deriving DecidableEq, Repr

/-- `fetch_structures_by_elements` (src/Optimade_Server/server.py lines
101-142), with reified effect trace.  The element filter is built with no
validation and no emptiness check, then the query is attempted. -/
def fetch_structures_by_elements
    (net : String → List String → Nat → Except String AggResults)
    (ts : String) (elements : List String) (max_results : Nat) (as_cif : Bool)
    (providers : Option (List String)) :
    OutDirResult × List Effect :=
  let element_filter := element_filter_of elements
  let used := usedProviders providers
  match net element_filter used max_results with
  | .error _ => ({ output_dir := "" }, [.query element_filter used max_results])
  | .ok results =>
    let folder := "materials_data/elements_" ++ joinSep "_" elements ++ "_" ++ ts
    let _ := save_structures results folder max_results as_cif
    ({ output_dir := folder },
     [.query element_filter used max_results, .mkdir folder])

/-! ## Optimade_Server/utils.py: _to_tcod_format

`_to_tcod_format` (lines 188-206) is `strip` followed by four `re.sub`
passes and a whitespace collapse.  Each regex pass is rendered as a
left-to-right scan equivalent to `re.sub`'s leftmost, non-overlapping
semantics; the correspondence is noted at each definition. -/

/-- The regex class `[A-Za-z]` (Lean's `Char.isAlpha` is exactly ASCII). -/
def isLet (c : Char) : Bool := c.isAlpha

/-- The regex class `\d` on ASCII. -/
def isDig (c : Char) : Bool := c.isDigit

/-- Scanner state for pass 1: normal text, just after a `/`, or inside the
letter run of a `/letters` match. -/
inductive P1State
  | norm
  | slash
  | run

/-- Pass 1, `re.sub(r'/([A-Za-z]+)', lambda m: '/' + ' '.join(m.group(1)), s)`:
a maximal letter run after `/` gets its letters separated by single spaces.
The replacement emits the first run letter unchanged and one space before
each further run letter, which is what the state machine does: `slash` after
a `/`, `run` while consuming the matched letter run. -/
def pass1go : P1State → List Char → List Char
  | _, [] => []
  | .slash, c :: rest =>
    if isLet c then c :: pass1go .run rest
    else if c = '/' then c :: pass1go .slash rest
    else c :: pass1go .norm rest
  | .run, c :: rest =>
    if isLet c then ' ' :: c :: pass1go .run rest
    else if c = '/' then c :: pass1go .slash rest
    else c :: pass1go .norm rest
  | .norm, c :: rest =>
    if c = '/' then c :: pass1go .slash rest
    else c :: pass1go .norm rest

/-- Pass 1 started in normal state. -/
def pass1 (l : List Char) : List Char := pass1go .norm l

/-- Pass 2, `re.sub(r'(?<=[A-Za-z])(?=[A-Za-z])', ' ', s)`: insert a space
between every two adjacent letters (the zero-width match fires at every
letter-letter boundary). -/
def pass2 : List Char → List Char
  | [] => []
  | [c] => [c]
  | a :: b :: t =>
    if isLet a && isLet b then a :: ' ' :: pass2 (b :: t) else a :: pass2 (b :: t)

/-- The letter-digit boundary test of pass 3. -/
def letDig (a b : Char) : Bool := (isLet a && isDig b) || (isDig a && isLet b)

/-- Pass 3, `re.sub(r'(?<=[A-Za-z])(?=\d)|(?<=\d)(?=[A-Za-z])', ' ', s)`:
insert a space at every letter-digit or digit-letter boundary. -/
def pass3 : List Char → List Char
  | [] => []
  | [c] => [c]
  | a :: b :: t =>
    if letDig a b then a :: ' ' :: pass3 (b :: t) else a :: pass3 (b :: t)

/-- The match attempt of pass 4's regex `\s*-\s*(?=\d)` at the head of `l`:
greedy whitespace, a minus, greedy whitespace, then a digit lookahead.  The
two `\s*` cannot backtrack usefully (shorter choices put `-` or the digit
test on a whitespace character), so the attempt succeeds exactly when the
maximal runs do; `some tail` returns the unconsumed suffix beginning at the
digit of the lookahead. -/
def matchMinus (l : List Char) : Option (List Char) :=
  match l.dropWhile pyWs with
  | '-' :: r =>
    match r.dropWhile pyWs with
    | d :: rest => if isDig d then some (d :: rest) else none
    | [] => none
  | _ => none

/-- Pass 4, `re.sub(r'\s*-\s*(?=\d)', ' -', s)`: leftmost non-overlapping
matches are each replaced by `" -"`; scanning resumes at the digit (the
lookahead is not consumed); on no match at this position the scan advances
one character. -/
def pass4 : List Char → List Char
  | [] => []
  | c :: rest =>
    match h : matchMinus (c :: rest) with
    | some tail => ' ' :: '-' :: pass4 tail
    | none => c :: pass4 rest
termination_by l => l.length
decreasing_by
  · have hlen : ∀ (m : List Char), (m.dropWhile pyWs).length ≤ m.length := by
      intro m
      induction m with
      | nil => simp [List.dropWhile]
      | cons a t ih =>
        by_cases hp : pyWs a
        · rw [List.dropWhile_cons_of_pos hp]
          exact Nat.le_trans ih (by simp)
        · rw [List.dropWhile_cons_of_neg (by simp [hp])]
    unfold matchMinus at h
    split at h
    · rename_i r heq
      split at h
      · rename_i d rest2 heq2
        split at h
        · cases h
          have h1 : (d :: rest2).length ≤ r.length := by
            have := hlen r
            rw [heq2] at this
            exact this
          have h2 : ('-' :: r).length ≤ (c :: rest).length := by
            have := hlen (c :: rest)
            rw [heq] at this
            exact this
          simp only [List.length_cons] at h1 h2 ⊢
          omega
        · cases h
      · cases h
    · cases h
  · simp

/-- Pass 5, `' '.join(s.split())`, after the leading whitespace is dropped:
copy word characters; a whitespace run followed by more text becomes one
space; a trailing whitespace run is dropped. -/
def p5aux : List Char → List Char
  | [] => []
  | c :: rest =>
    if pyWs c then
      match h : rest.dropWhile pyWs with
      | [] => []
      | d :: r => ' ' :: p5aux (d :: r)
    else c :: p5aux rest
termination_by l => l.length
decreasing_by
  · have hlen : ∀ (m : List Char), (m.dropWhile pyWs).length ≤ m.length := by
      intro m
      induction m with
      | nil => simp [List.dropWhile]
      | cons a t ih =>
        by_cases hp : pyWs a
        · rw [List.dropWhile_cons_of_pos hp]
          exact Nat.le_trans ih (by simp)
        · rw [List.dropWhile_cons_of_neg (by simp [hp])]
    have := hlen rest
    rw [h] at this
    simp only [List.length_cons] at this ⊢
    omega
  · simp

/-- Pass 5 on a full string: Python `' '.join(s.split())`. -/
def pass5 (l : List Char) : List Char := p5aux (l.dropWhile pyWs)

/-- `_to_tcod_format` (src/Optimade_Server/utils.py lines 188-206): convert a
short Hermann-Mauguin symbol to TCOD spacing. -/
def _to_tcod_format (hm : String) : String :=
  String.mk (pass5 (pass4 (pass3 (pass2 (pass1 (pyStripL hm.data))))))

/-! ## Invariants for the idempotence of _to_tcod_format

The output of the pipeline satisfies a small set of invariants (no adjacent
letters, no letter-digit adjacency, normalized whitespace, normalized
minus-before-digit contexts) under which every pass is the identity, up to a
leading space that pass 5 strips again. -/

/-- No two adjacent letters. -/
def noLL (l : List Char) : Prop :=
  l.Chain' (fun a b => ¬(isLet a = true ∧ isLet b = true))

/-- No letter-digit or digit-letter adjacency. -/
def noLD (l : List Char) : Prop :=
  l.Chain' (fun a b => letDig a b = false)

/-- Every whitespace character is a plain space. -/
def wsOnlySp (l : List Char) : Prop :=
  ∀ c ∈ l, pyWs c = true → c = ' '

/-- No two adjacent spaces. -/
def noDblSp (l : List Char) : Prop :=
  l.Chain' (fun a b => ¬(a = ' ' ∧ b = ' '))

/-- After dropping leading whitespace the list starts with a digit. -/
def wsThenDig (l : List Char) : Prop :=
  ∃ d, (l.dropWhile pyWs).head? = some d ∧ isDig d = true

/-- Scan invariant of a whitespace-normalized string, carrying the previous
character: a minus directly before a digit is preceded by a space or by the
start of the string, and no minus is followed by a space and then a digit.
Exactly the strings on which pass 4 rewrites every match to itself (or
prepends one space at the very start). -/
def S4 : Option Char → List Char → Prop
  | _, [] => True
  | p, c :: rest =>
    (c = '-' →
      (∀ d, rest.head? = some d → isDig d = true → p = none ∨ p = some ' ') ∧
      (∀ d r2, rest = ' ' :: d :: r2 → isDig d = false)) ∧
    S4 (some c) rest

/-- The raw-output invariant of pass 4, before whitespace collapsing: a minus
directly before a digit is preceded by whitespace or by the start, and no
minus is followed by a nonempty whitespace run and then a digit. -/
def G : Option Char → List Char → Prop
  | _, [] => True
  | p, c :: rest =>
    (c = '-' →
      (∀ d, rest.head? = some d → isDig d = true →
        p = none ∨ ∃ w, p = some w ∧ pyWs w = true) ∧
      (∀ w r2, rest = w :: r2 → pyWs w = true → ¬ wsThenDig r2)) ∧
    G (some c) rest

/-! ## Theorems -/

/-! ### Generic helper lemmas -/

theorem pyStrip_empty : pyStrip "" = "" := rfl

theorem string_mk_ne_empty (l : List Char) (h : l ≠ []) : String.mk l ≠ "" := by
  intro he
  exact h (congrArg String.data he)

theorem quoteElem_data (e : String) : (quoteElem e).data = '"' :: (e.data ++ ['"']) := by
  simp [quoteElem, String.data_append]

theorem joinSep_cons_cons (sep x y : String) (rest : List String) :
    joinSep sep (x :: y :: rest) = x ++ sep ++ joinSep sep (y :: rest) := rfl

theorem joinSep_head (sep x : String) (xs : List String) :
    ∃ r, (joinSep sep (x :: xs)).data = x.data ++ r := by
  cases xs with
  | nil => exact ⟨[], by simp [joinSep]⟩
  | cons y rest =>
    refine ⟨sep.data ++ (joinSep sep (y :: rest)).data, ?_⟩
    rw [joinSep_cons_cons]
    simp [String.data_append]

/-! ### Claim C3: provider-name derivation -/

/-- Claim C3, counterexample: the claim says dots are replaced with
underscores in both the network-location and the path component, but the code
replaces dots only in the network location; the path of
`https://example.org/v1.0` keeps its dot, so the derived name contains a
dot. -/
theorem provider_name_keeps_path_dot :
    _provider_name_from_url "https://example.org/v1.0" = "example_org_v1.0" ∧
      '.' ∈ ("example_org_v1.0" : String).data :=
  ⟨rfl, by decide⟩

/-- Claim C3 as amended: the provider name is derived purely from the URL by
replacing dots with underscores in the network-location component only,
stripping leading and trailing slashes from the path and replacing its
remaining slashes with underscores, joining the two components with an
underscore when the path is nonempty, stripping leading/trailing underscores,
and falling back to `"provider"` when nothing remains.  Purity (same URL,
same name, regardless of filter key or call) is inherent in the embedding:
the derivation is a function of the URL alone. -/
theorem provider_name_follows_amended_spec (url : String) :
    _provider_name_from_url url = providerNameAmendedSpec url := by
  unfold _provider_name_from_url providerNameAmendedSpec
  by_cases hp : chReplace '/' '_' (stripCharL '/' (urlparseNetlocPath url).2) = []
  · simp only [hp, if_pos rfl]
    cases h : stripCharL '_' (chReplace '.' '_' (urlparseNetlocPath url).1 ++ []) with
    | nil => simp only [List.append_nil] at h ⊢; simp [h]
    | cons c rest => simp only [List.append_nil] at h ⊢; simp [h]
  · simp only [hp, if_neg hp]
    cases h : stripCharL '_' (chReplace '.' '_' (urlparseNetlocPath url).1 ++
        '_' :: chReplace '/' '_' (stripCharL '/' (urlparseNetlocPath url).2)) with
    | nil => simp [h]
    | cons c rest => simp [h]

/-! ### Claim C5: build_provider_filters -/

/-- Claim C5, counterexample: combining a nonempty base with an empty
per-provider map returns the empty map, not the base; and the combined clause
parenthesizes the whitespace-trimmed base, not the base verbatim. -/
theorem build_provider_filters_empty_map :
    build_provider_filters (some "x") [] = [] ∧ ("x" : String) ≠ "" ∧
      build_provider_filters (some " x ") [("p", "c")] = [("p", "(x) AND (c)")] ∧
      ("(x) AND (c)" : String) ≠ "( x ) AND (c)" := by
  refine ⟨rfl, by decide, rfl, by decide⟩

/-- Claim C5 as amended: for each provider whose specific clause is nonempty
after trimming, the result maps it to `(base) AND (specific)` over the
trimmed base and trimmed specific clause when the trimmed base is nonempty,
and to the trimmed specific clause alone when it is empty; providers with
empty specific clauses are omitted; combining with an empty per-provider map
returns the empty map (not the base). -/
theorem build_provider_filters_follows_combineSpec
    (base : Option String) (pm : List (String × String)) :
    build_provider_filters base pm =
      pm.filterMap (fun pc =>
        if pyStrip pc.2 = "" then none
        else some (pc.1, combineSpec (pyStrip (base.getD "")) (pyStrip pc.2))) := by
  unfold build_provider_filters
  apply List.filterMap_congr
  intro pc _
  by_cases hc : pyStrip pc.2 = ""
  · have hguard : ¬ (pc.2 ≠ "" ∧ pyStrip pc.2 ≠ "") := by
      intro hand
      exact hand.2 hc
    simp [hguard, hc]
  · have hne : pc.2 ≠ "" := by
      intro he
      rw [he] at hc
      exact hc pyStrip_empty
    by_cases hb : pyStrip (base.getD "") = ""
    · simp [hne, hc, hb, combineSpec]
    · simp [hne, hc, hb, combineSpec]

/-! ### Claim C8: element symbols are embedded without validation -/

/-- Claim C8, counterexample: the string `Xx!` is not a periodic-table
symbol, yet both filter builders embed it verbatim in the filter text; no
validation against any symbol set occurs. -/
theorem element_filter_embeds_nonsymbol :
    element_filter_of ["Xx!"] = "elements HAS ALL \"Xx!\"" ∧
      build_filter ["Xx!"] [] [] = "elements HAS ALL \"Xx!\"" :=
  ⟨rfl, rfl⟩

theorem mem_joinQuoted (e : String) (es : List String) (h : e ∈ es) :
    ∃ pre post, (joinQuoted es).data = pre ++ ('"' :: (e.data ++ ['"'])) ++ post := by
  induction es with
  | nil => cases h
  | cons x rest ih =>
    cases rest with
    | nil =>
      cases h with
      | head =>
        refine ⟨[], [], ?_⟩
        simp [joinQuoted, joinSep, quoteElem_data]
      | tail _ hm => cases hm
    | cons y r =>
      cases h with
      | head =>
        refine ⟨[], (", " ++ joinSep ", " (List.map quoteElem (y :: r))).data, ?_⟩
        show (joinSep ", " (quoteElem e :: quoteElem y :: List.map quoteElem r)).data = _
        rw [joinSep_cons_cons]
        simp [String.data_append, quoteElem_data]
      | tail _ hmem =>
        rcases ih hmem with ⟨pre, post, hd⟩
        refine ⟨(quoteElem x ++ ", ").data ++ pre, post, ?_⟩
        show (joinSep ", " (quoteElem x :: quoteElem y :: List.map quoteElem r)).data = _
        rw [joinSep_cons_cons]
        have hjq : joinSep ", " (quoteElem y :: List.map quoteElem r) = joinQuoted (y :: r) := rfl
        rw [hjq, String.data_append, String.data_append, hd]
        simp

/-- Claim C8 as amended: no validation happens; every string in the element
list, periodic-table symbol or not, is embedded verbatim (double-quoted) into
the filter text produced by both the by-elements builder and the advanced
builder. -/
theorem element_filters_embed_verbatim
    (es anyL onlyL : List String) (e : String) (h : e ∈ es) :
    (∃ pre post, (element_filter_of es).data = pre ++ ('"' :: (e.data ++ ['"'])) ++ post) ∧
      (∃ pre post, (build_filter es anyL onlyL).data = pre ++ ('"' :: (e.data ++ ['"'])) ++ post) := by
  obtain ⟨pre, post, hd⟩ := mem_joinQuoted e es h
  have hes : es ≠ [] := by
    intro he
    rw [he] at h
    cases h
  constructor
  · refine ⟨("elements HAS ALL " : String).data ++ pre, post, ?_⟩
    unfold element_filter_of
    rw [String.data_append, hd]
    simp
  · unfold build_filter
    rw [if_neg hes]
    generalize (if anyL = [] then ([] : List String) else ["elements HAS ANY " ++ joinQuoted anyL]) = A
    generalize (if onlyL = [] then ([] : List String) else ["elements HAS ONLY " ++ joinQuoted onlyL]) = O
    have hform : (["elements HAS ALL " ++ joinQuoted es] ++ A ++ O)
        = ("elements HAS ALL " ++ joinQuoted es) :: (A ++ O) := by simp
    rw [hform, if_neg (List.cons_ne_nil _ _)]
    obtain ⟨r, hr⟩ := joinSep_head " AND " ("elements HAS ALL " ++ joinQuoted es) (A ++ O)
    refine ⟨("elements HAS ALL " : String).data ++ pre, post ++ r, ?_⟩
    rw [hr, String.data_append, hd]
    simp

/-- Claim C8 amended, witness at a concrete input: `O` occurs in the list
`[Si, O]` and is embedded quoted in both builders. -/
theorem element_filters_embed_verbatim_witness :
    (∃ pre post, (element_filter_of ["Si", "O"]).data =
        pre ++ ('"' :: (("O" : String).data ++ ['"'])) ++ post) ∧
      (∃ pre post, (build_filter ["Si", "O"] [] []).data =
        pre ++ ('"' :: (("O" : String).data ++ ['"'])) ++ post) :=
  element_filters_embed_verbatim ["Si", "O"] [] [] "O" (by decide)

/-! ### Claim C10: filter_to_tag with default length -/

/-- Claim C10: for every input, `filter_to_tag` at the default `max_len` of
30 returns a nonempty tag of length at most 30 whose characters are
alphanumerics, underscores or dashes, and returns the literal `"filter"`
when sanitization removes every character. -/
theorem filter_to_tag_default_safe (s : String) :
    (filter_to_tag s 30).length ≤ 30 ∧ filter_to_tag s 30 ≠ "" ∧
      (∀ c ∈ (filter_to_tag s 30).data, (c.isAlphanum || c == '_' || c == '-') = true) ∧
      (filter_tag_core s = [] → filter_to_tag s 30 = "filter") := by
  unfold filter_to_tag
  by_cases h : (filter_tag_core s).take 30 = []
  · refine ⟨?_, ?_, ?_, ?_⟩ <;> simp [h] <;> decide
  · simp only [h, if_neg h]
    refine ⟨?_, string_mk_ne_empty _ h, ?_, ?_⟩
    · show ((filter_tag_core s).take 30).length ≤ 30
      exact List.length_take_le 30 _
    · intro c hc
      have hmemcore : c ∈ filter_tag_core s := List.mem_of_mem_take hc
      unfold filter_tag_core at hmemcore
      exact (List.mem_filter.mp hmemcore).2
    · intro hcore
      rw [hcore] at h
      simp at h

/-- Claim C10, witness: a concrete filter whose sanitized core is short and a
concrete filter that sanitizes to nothing. -/
theorem filter_to_tag_default_safe_witness :
    (filter_to_tag "nelements=3" 30).length ≤ 30 ∧ filter_to_tag "nelements=3" 30 ≠ "" ∧
      (∀ c ∈ (filter_to_tag "nelements=3" 30).data, (c.isAlphanum || c == '_' || c == '-') = true) ∧
      (filter_tag_core "nelements=3" = [] → filter_to_tag "nelements=3" 30 = "filter") :=
  filter_to_tag_default_safe "nelements=3"

/-! ### Claims C1 and C2: save_structures -/

theorem processRecords_eq (folder name : String) (asCif : Bool) (i : Nat) (rs : List SRecord) :
    processRecords folder name asCif i rs =
      ((rs.enumFrom i).filterMap (fun ir =>
          match saveOne asCif ir.2 with
          | .ok _ => some (recordFile folder name asCif ir.1)
          | .error _ => none),
       (rs.enumFrom i).filterMap (fun ir =>
          match saveOne asCif ir.2 with
          | .ok _ => none
          | .error e2 => some (failMsg name ir.1 e2))) := by
  induction rs generalizing i with
  | nil => rfl
  | cons r rest ih =>
    cases hsave : saveOne asCif r with
    | ok u =>
      simp only [processRecords, hsave, List.enumFrom_cons, List.filterMap_cons, ih (i + 1)]
    | error e2 =>
      simp only [processRecords, hsave, List.enumFrom_cons, List.filterMap_cons, ih (i + 1)]

theorem saveProviders_eq (folder : String) (cap : Nat) (asCif : Bool)
    (pd : List (String × List SRecord)) :
    saveProviders folder cap asCif pd =
      (pd.flatMap (providerFiles folder cap asCif),
       pd.flatMap (providerWarnings cap asCif),
       pd.map (fun pu => _provider_name_from_url pu.1)) := by
  induction pd with
  | nil => rfl
  | cons pu rest ih =>
    obtain ⟨url, data⟩ := pu
    simp only [saveProviders, ih, List.flatMap_cons, List.map_cons]
    rw [processRecords_eq]
    simp [providerFiles, providerWarnings, List.enum]

theorem save_structures_eq (results : AggResults) (folder : String) (cap : Nat) (asCif : Bool) :
    save_structures results folder cap asCif =
      ((flatProviders results).flatMap (providerFiles folder cap asCif),
       (flatProviders results).flatMap (providerWarnings cap asCif),
       (flatProviders results).map (fun pu => _provider_name_from_url pu.1)) := by
  induction results with
  | nil => rfl
  | cons fp rest ih =>
    obtain ⟨fk, pd⟩ := fp
    simp only [save_structures, ih, flatProviders, List.flatMap_cons, List.flatMap_append,
      List.map_append]
    rw [saveProviders_eq]

/-- Claim C1: per-record failure isolation of `save_structures`.  For every
aggregated response, folder, cap and format, the outputs decompose record by
record: each retained record whose conversion or write fails (including a CIF
conversion yielding empty or whitespace-only text, rejected before any write)
contributes exactly one warning `Failed to save structure from {provider}
#{index}: {detail}` and no file, while every other retained record and every
other provider contributes exactly as it would alone — so one failing record
never aborts the batch, and the embedding is a total function (no exception
escapes the per-record handler). -/
theorem save_structures_isolates_record_failures
    (results : AggResults) (folder : String) (cap : Nat) (asCif : Bool) :
    save_structures results folder cap asCif =
      ((flatProviders results).flatMap (providerFiles folder cap asCif),
       (flatProviders results).flatMap (providerWarnings cap asCif),
       (flatProviders results).map (fun pu => _provider_name_from_url pu.1)) :=
  save_structures_eq results folder cap asCif

theorem providerFiles_count (folder name : String) (asCif : Bool) (l : List SRecord) (i : Nat) :
    ((l.enumFrom i).filterMap (fun ir =>
        match saveOne asCif ir.2 with
        | .ok _ => some (recordFile folder name asCif ir.1)
        | .error _ => none)).length
      + l.countP (fun r => !(saveOne asCif r).isOk) = l.length := by
  induction l generalizing i with
  | nil => rfl
  | cons r t ih =>
    rw [List.enumFrom_cons, List.filterMap_cons, List.countP_cons]
    have hrec := ih (i + 1)
    cases hcase : saveOne asCif r with
    | ok u =>
      simp only [hcase, List.length_cons]
      simp only [Except.isOk, Except.toBool] at hrec ⊢
      simp only [Bool.not_true, Bool.false_eq_true, if_false]
      omega
    | error e2 =>
      simp only [hcase, List.length_cons]
      simp only [Except.isOk, Except.toBool] at hrec ⊢
      simp only [Bool.not_false, if_true]
      omega

/-- Claim C2: within one `save_structures` call the files decompose provider
by provider, and each provider entry contributes at most `cap` files, namely
`min(available, cap)` minus the number of its retained records whose
conversion or write failed (stated additively: files + failures =
min(available, cap)); records are taken in input order by truncating the
record list to the cap. -/
theorem save_structures_respects_provider_cap
    (results : AggResults) (folder : String) (cap : Nat) (asCif : Bool) :
    (save_structures results folder cap asCif).1 =
        (flatProviders results).flatMap (providerFiles folder cap asCif) ∧
      ∀ pu ∈ flatProviders results,
        (providerFiles folder cap asCif pu).length ≤ cap ∧
          (providerFiles folder cap asCif pu).length + providerFailures cap asCif pu =
            min pu.2.length cap := by
  constructor
  · rw [save_structures_eq]
  · intro pu _
    constructor
    · calc (providerFiles folder cap asCif pu).length
          ≤ (pu.2.take cap).enum.length := List.length_filterMap_le _ _
        _ = (pu.2.take cap).length := by simp [List.enum, List.enumFrom_length]
        _ ≤ cap := List.length_take_le cap _
    · have hmain := providerFiles_count folder (_provider_name_from_url pu.1) asCif
        (pu.2.take cap) 0
      unfold providerFiles providerFailures
      rw [List.length_take, Nat.min_comm] at hmain
      simpa [List.enum] using hmain

/-- A record whose converter and write both succeed. -/
def recGood : SRecord := { cif := Except.ok "data_block", write := Except.ok () }

/-- A record whose converter raises. -/
def recBad : SRecord := { cif := Except.error "boom", write := Except.ok () }

/-- Claim C2, witness at a concrete input: one provider with three records
(one failing), cap 2. -/
theorem save_structures_respects_provider_cap_witness :
    (providerFiles "out" 2 true ("https://a.b", [recGood, recBad, recGood])).length ≤ 2 ∧
      (providerFiles "out" 2 true ("https://a.b", [recGood, recBad, recGood])).length +
          providerFailures 2 true ("https://a.b", [recGood, recBad, recGood]) =
        min ([recGood, recBad, recGood] : List SRecord).length 2 :=
  (save_structures_respects_provider_cap [("f", [("https://a.b", [recGood, recBad, recGood])])]
      "out" 2 true).2
    ("https://a.b", [recGood, recBad, recGood]) (by simp [flatProviders])

/-! ### Claims C4, C6 and C7: tool surface -/

/-- A query collaborator standing for an unreachable network. -/
def netNone : String → List String → Nat → Except String AggResults :=
  fun _ _ _ => Except.error "unreachable"

/-- Claim C6: a raw filter that is empty after trimming returns the uniform
envelope immediately — empty output directory, no files, no providers, and
exactly one warning, which mentions the empty filter — with an empty effect
trace: no directory is created and the query collaborator is never
invoked. -/
theorem fetch_with_filter_empty_filter
    (net : String → List String → Nat → Except String AggResults)
    (ts short filter : String) (fmt : SFormat) (cap : Nat) (provs : Option (List String))
    (h : pyStrip filter = "") :
    fetch_structures_with_filter net ts short filter fmt cap provs =
      ({ output_dir := "", files := [], providers_used := [], filter := "",
         warnings := ["[raw] empty filter string"] }, []) ∧
      "[raw] empty filter string" = "[raw] " ++ "empty filter" ++ " string" := by
  constructor
  · simp [fetch_structures_with_filter, h]
  · rfl

/-- Claim C6, witness: the all-whitespace filter string. -/
theorem fetch_with_filter_empty_filter_witness :
    pyStrip "   " = "" ∧
      (fetch_structures_with_filter netNone "T" "S" "   " SFormat.cif 2 none =
        ({ output_dir := "", files := [], providers_used := [], filter := "",
           warnings := ["[raw] empty filter string"] }, []) ∧
        "[raw] empty filter string" = "[raw] " ++ "empty filter" ++ " string") :=
  ⟨rfl, fetch_with_filter_empty_filter netNone "T" "S" "   " SFormat.cif 2 none rfl⟩

/-- A query collaborator returning one filter key under which two distinct
provider URLs sanitize to the same provider name. -/
def netDupSeen : String → List String → Nat → Except String AggResults :=
  fun _ _ _ => Except.ok [("f", [("https://a.b", []), ("http://a.b", [])])]

/-- Claim C4, counterexample: the manifest written to `summary.json` records
`providers_seen` without removing duplicates (here `a_b` twice), and carries
no total-file-count field — its fields are exactly filter,
providers_requested, providers_seen, files, warnings, format and
max_results_per_provider — contradicting the claimed deduplicated provider
list and total file count. -/
theorem summary_manifest_not_deduplicated :
    fetch_structures_with_filter netDupSeen "T" "S" "f" SFormat.cif 2 none =
      ({ output_dir := "materials_data/rawfilter_T_S", files := [], providers_used := ["a_b"],
         filter := "f", warnings := [] },
       [Effect.query "f" DEFAULT_PROVIDERS_SRV 2,
        Effect.mkdir "materials_data/rawfilter_T_S",
        Effect.writeSummary "materials_data/rawfilter_T_S/summary.json"
          { filter := "f",
            providers_requested :=
              ["alexandria", "cmr", "jarvis", "mp", "mpds", "nmd", "odbx", "omdb", "oqmd"],
            providers_seen := ["a_b", "a_b"], files := [], warnings := [],
            format := SFormat.cif, max_results_per_provider := 2 }]) ∧
      ¬ (["a_b", "a_b"] : List String).Nodup := by
  constructor
  · rfl
  · decide

/-- Claim C4 as amended: after every successful raw-filter query, exactly one
manifest `summary.json` is written into the output directory, containing the
trimmed filter, the requested providers sorted and deduplicated, the
providers actually seen in encounter order with duplicates kept, the written
file paths in write order, the warnings in occurrence order, the format and
the per-provider cap; the total file count is recoverable as the length of
the files list but is not a separate field. -/
theorem summary_manifest_contents
    (net : String → List String → Nat → Except String AggResults)
    (ts short filter : String) (fmt : SFormat) (cap : Nat)
    (provs : Option (List String)) (results : AggResults)
    (hne : ¬ pyStrip filter = "")
    (hq : net (pyStrip filter) (usedProviders provs) cap = Except.ok results) :
    (fetch_structures_with_filter net ts short filter fmt cap provs).2 =
      [Effect.query (pyStrip filter) (usedProviders provs) cap,
       Effect.mkdir ("materials_data/rawfilter_" ++ ts ++ "_" ++ short),
       Effect.writeSummary ("materials_data/rawfilter_" ++ ts ++ "_" ++ short ++ "/summary.json")
         { filter := pyStrip filter,
           providers_requested := pySortedSet (usedProviders provs),
           providers_seen := (save_structures results
             ("materials_data/rawfilter_" ++ ts ++ "_" ++ short) cap (fmt == SFormat.cif)).2.2,
           files := (save_structures results
             ("materials_data/rawfilter_" ++ ts ++ "_" ++ short) cap (fmt == SFormat.cif)).1,
           warnings := (save_structures results
             ("materials_data/rawfilter_" ++ ts ++ "_" ++ short) cap (fmt == SFormat.cif)).2.1,
           format := fmt, max_results_per_provider := cap }] := by
  simp [fetch_structures_with_filter, hne, hq]

/-- Claim C4 amended, witness at a concrete input. -/
theorem summary_manifest_contents_witness :
    (fetch_structures_with_filter netDupSeen "T2" "S2" "g" SFormat.json 1 none).2 =
      [Effect.query (pyStrip "g") (usedProviders none) 1,
       Effect.mkdir ("materials_data/rawfilter_" ++ "T2" ++ "_" ++ "S2"),
       Effect.writeSummary ("materials_data/rawfilter_" ++ "T2" ++ "_" ++ "S2" ++ "/summary.json")
         { filter := pyStrip "g",
           providers_requested := pySortedSet (usedProviders none),
           providers_seen := (save_structures [("f", [("https://a.b", []), ("http://a.b", [])])]
             ("materials_data/rawfilter_" ++ "T2" ++ "_" ++ "S2") 1 (SFormat.json == SFormat.cif)).2.2,
           files := (save_structures [("f", [("https://a.b", []), ("http://a.b", [])])]
             ("materials_data/rawfilter_" ++ "T2" ++ "_" ++ "S2") 1 (SFormat.json == SFormat.cif)).1,
           warnings := (save_structures [("f", [("https://a.b", []), ("http://a.b", [])])]
             ("materials_data/rawfilter_" ++ "T2" ++ "_" ++ "S2") 1 (SFormat.json == SFormat.cif)).2.1,
           format := SFormat.json, max_results_per_provider := 1 }] :=
  summary_manifest_contents netDupSeen "T2" "S2" "g" SFormat.json 1 none
    [("f", [("https://a.b", []), ("http://a.b", [])])] (by decide) rfl

/-- Claim C7, counterexample: calling the by-elements fetch with an empty
element list is not rejected as a caller error and does not skip the network:
the degenerate filter `elements HAS ALL ` is built and a query effect is
dispatched to the collaborator; the surfaced result is a plain envelope, not
an InvalidIntent error. -/
theorem by_elements_empty_list_queries :
    fetch_structures_by_elements netNone "T" [] 2 true none =
      ({ output_dir := "" }, [Effect.query "elements HAS ALL " DEFAULT_PROVIDERS_SRV 2]) ∧
      element_filter_of [] = "elements HAS ALL " :=
  ⟨rfl, rfl⟩

/-- Claim C7 as amended: an empty element list is not a surfaced caller
error; the by-elements operation always begins by dispatching the query with
the degenerate filter `elements HAS ALL ` built from the empty list, and the
advanced builder instead falls back to the harmless default clause
`elements HAS ANY "Si"`. -/
theorem by_elements_empty_list_behavior
    (net : String → List String → Nat → Except String AggResults)
    (ts : String) (cap : Nat) (asCif : Bool) (provs : Option (List String)) :
    (fetch_structures_by_elements net ts [] cap asCif provs).2.head? =
        some (Effect.query "elements HAS ALL " (usedProviders provs) cap) ∧
      build_filter [] [] [] = "elements HAS ANY \"Si\"" := by
  constructor
  · have hfilt : element_filter_of [] = "elements HAS ALL " := rfl
    unfold fetch_structures_by_elements
    rw [hfilt]
    cases hq : net "elements HAS ALL " (usedProviders provs) cap with
    | error e => simp [hq]
    | ok results => simp [hq]
  · rfl

/-! ### Claim C9: idempotence of the Hermann-Mauguin spacing expansion -/

theorem dig_not_ws (d : Char) (h : isDig d = true) : pyWs d = false := by
  by_contra hw
  simp only [Bool.not_eq_false, pyWs, Bool.or_eq_true, beq_iff_eq] at hw
  rcases hw with ((((h1 | h1) | h1) | h1) | h1) | h1 <;>
    (subst h1; exact absurd h (by decide))

theorem hdDrop_not_ws (l : List Char) (d : Char)
    (h : (l.dropWhile pyWs).head? = some d) : pyWs d = false := by
  have hh := List.head?_dropWhile_not pyWs l
  rw [h] at hh
  simpa using hh

theorem wsOnlySp_tail {c : Char} {l : List Char} (h : wsOnlySp (c :: l)) : wsOnlySp l :=
  fun x hx => h x (List.mem_cons_of_mem c hx)

theorem noDblSp_tail {c : Char} {l : List Char} (h : noDblSp (c :: l)) : noDblSp l :=
  (List.chain'_cons'.mp h).2

theorem noLL_tail {c : Char} {l : List Char} (h : noLL (c :: l)) : noLL l :=
  (List.chain'_cons'.mp h).2

theorem noLD_tail {c : Char} {l : List Char} (h : noLD (c :: l)) : noLD l :=
  (List.chain'_cons'.mp h).2

theorem S4_tail {p : Option Char} {c : Char} {rest : List Char}
    (h : S4 p (c :: rest)) : S4 (some c) rest := h.2

theorem G_tail {p : Option Char} {c : Char} {rest : List Char}
    (h : G p (c :: rest)) : G (some c) rest := h.2

/-! #### Passes 1-3 fix whitespace-separated text -/

theorem pass2_head (l : List Char) : (pass2 l).head? = l.head? := by
  match l with
  | [] => rfl
  | [c] => rfl
  | a :: b :: t => cases h : (isLet a && isLet b) <;> simp [pass2, h]

theorem pass3_head (l : List Char) : (pass3 l).head? = l.head? := by
  match l with
  | [] => rfl
  | [c] => rfl
  | a :: b :: t => cases h : letDig a b <;> simp [pass3, h]

theorem noLL_pass2 (l : List Char) : noLL (pass2 l) := by
  induction l with
  | nil => simp [pass2, noLL]
  | cons a rest ih =>
    cases rest with
    | nil => simp [pass2, noLL]
    | cons b t =>
      cases h : (isLet a && isLet b) with
      | true =>
        have h2 : pass2 (a :: b :: t) = a :: ' ' :: pass2 (b :: t) := by simp [pass2, h]
        rw [h2]
        refine List.chain'_cons'.mpr ⟨?_, List.chain'_cons'.mpr ⟨?_, ih⟩⟩
        · intro y hy
          simp only [List.head?_cons, Option.mem_def, Option.some.injEq] at hy
          subst hy
          intro hand
          exact absurd hand.2 (by decide)
        · intro y hy
          rw [Option.mem_def, pass2_head] at hy
          intro hand
          exact absurd hand.1 (by decide)
      | false =>
        have h2 : pass2 (a :: b :: t) = a :: pass2 (b :: t) := by simp [pass2, h]
        rw [h2]
        refine List.chain'_cons'.mpr ⟨?_, ih⟩
        intro y hy
        rw [Option.mem_def, pass2_head] at hy
        simp only [List.head?_cons, Option.some.injEq] at hy
        subst hy
        intro hand
        rw [hand.1, hand.2] at h
        simp at h

theorem noLD_pass3 (l : List Char) : noLD (pass3 l) := by
  have hsp1 : isLet ' ' = false := by decide
  have hsp2 : isDig ' ' = false := by decide
  induction l with
  | nil => simp [pass3, noLD]
  | cons a rest ih =>
    cases rest with
    | nil => simp [pass3, noLD]
    | cons b t =>
      cases h : letDig a b with
      | true =>
        have h2 : pass3 (a :: b :: t) = a :: ' ' :: pass3 (b :: t) := by simp [pass3, h]
        rw [h2]
        refine List.chain'_cons'.mpr ⟨?_, List.chain'_cons'.mpr ⟨?_, ih⟩⟩
        · intro y hy
          simp only [List.head?_cons, Option.mem_def, Option.some.injEq] at hy
          subst hy
          simp [letDig, hsp1, hsp2]
        · intro y hy
          rw [Option.mem_def, pass3_head] at hy
          simp [letDig, hsp1, hsp2]
      | false =>
        have h2 : pass3 (a :: b :: t) = a :: pass3 (b :: t) := by simp [pass3, h]
        rw [h2]
        refine List.chain'_cons'.mpr ⟨?_, ih⟩
        intro y hy
        rw [Option.mem_def, pass3_head] at hy
        simp only [List.head?_cons, Option.some.injEq] at hy
        subst hy
        exact h

theorem pass3_preserves_noLL (l : List Char) (h : noLL l) : noLL (pass3 l) := by
  have hsp1 : isLet ' ' = false := by decide
  induction l with
  | nil => simp [pass3, noLL]
  | cons a rest ih =>
    cases rest with
    | nil => simp [pass3, noLL]
    | cons b t =>
      have hR := (List.chain'_cons.mp h).1
      have htl := (List.chain'_cons.mp h).2
      cases hc : letDig a b with
      | true =>
        have h2 : pass3 (a :: b :: t) = a :: ' ' :: pass3 (b :: t) := by simp [pass3, hc]
        rw [h2]
        refine List.chain'_cons'.mpr ⟨?_, List.chain'_cons'.mpr ⟨?_, ih htl⟩⟩
        · intro y hy
          simp only [List.head?_cons, Option.mem_def, Option.some.injEq] at hy
          subst hy
          intro hand
          rw [hsp1] at hand
          exact absurd hand.2 (by decide)
        · intro y hy
          intro hand
          rw [hsp1] at hand
          exact absurd hand.1 (by decide)
      | false =>
        have h2 : pass3 (a :: b :: t) = a :: pass3 (b :: t) := by simp [pass3, hc]
        rw [h2]
        refine List.chain'_cons'.mpr ⟨?_, ih htl⟩
        intro y hy
        rw [Option.mem_def, pass3_head] at hy
        simp only [List.head?_cons, Option.some.injEq] at hy
        subst hy
        exact hR

theorem pass2_fix (l : List Char) (h : noLL l) : pass2 l = l := by
  induction l with
  | nil => rfl
  | cons a rest ih =>
    cases rest with
    | nil => rfl
    | cons b t =>
      have hR := (List.chain'_cons.mp h).1
      have htl := (List.chain'_cons.mp h).2
      have hb : (isLet a && isLet b) = false := by
        by_contra hx
        simp only [Bool.not_eq_false, Bool.and_eq_true] at hx
        exact hR hx
      simp [pass2, hb, ih htl]

theorem pass3_fix (l : List Char) (h : noLD l) : pass3 l = l := by
  induction l with
  | nil => rfl
  | cons a rest ih =>
    cases rest with
    | nil => rfl
    | cons b t =>
      have hR := (List.chain'_cons.mp h).1
      have htl := (List.chain'_cons.mp h).2
      simp [pass3, hR, ih htl]

theorem pass1go_fix (l : List Char) (h : noLL l) :
    pass1go P1State.norm l = l ∧ pass1go P1State.slash l = l ∧
      ((∀ c, l.head? = some c → isLet c = false) → pass1go P1State.run l = l) := by
  have hslashLet : isLet '/' = false := by decide
  induction l with
  | nil => exact ⟨rfl, rfl, fun _ => rfl⟩
  | cons c rest ih =>
    have htl : noLL rest := noLL_tail h
    obtain ⟨ihn, ihs, ihr⟩ := ih htl
    refine ⟨?_, ?_, ?_⟩
    · by_cases hc : c = '/'
      · simp [pass1go, hc, ihs, hslashLet]
      · simp [pass1go, hc, ihn]
    · by_cases hl : isLet c = true
      · have hrest : ∀ d, rest.head? = some d → isLet d = false := by
          intro d hd
          have hRd := (List.chain'_cons'.mp h).1 d (Option.mem_def.mpr hd)
          by_contra hdl
          simp only [Bool.not_eq_false] at hdl
          exact hRd ⟨hl, hdl⟩
        simp [pass1go, hl, ihr hrest]
      · have hl2 : isLet c = false := by simpa using hl
        by_cases hc : c = '/'
        · simp [pass1go, hl2, hc, ihs, hslashLet]
        · simp [pass1go, hl2, hc, ihn]
    · intro hhead
      have hl : isLet c = false := hhead c rfl
      by_cases hc : c = '/'
      · simp [pass1go, hl, hc, ihs, hslashLet]
      · simp [pass1go, hl, hc, ihn]

theorem pass1_fix (l : List Char) (h : noLL l) : pass1 l = l :=
  (pass1go_fix l h).1

/-! #### Pass 5: whitespace normalization facts -/

theorem p5aux_head (l : List Char) (y : Char) (hy : (p5aux l).head? = some y) :
    y = ' ' ∨ l.head? = some y := by
  match l with
  | [] => simp [p5aux] at hy
  | c :: rest =>
    by_cases hws : pyWs c
    · left
      rw [p5aux, if_pos hws] at hy
      rcases hd : rest.dropWhile pyWs with _ | ⟨d, r⟩ <;> rw [hd] at hy <;> simp at hy
      exact hy.symm
    · right
      rw [p5aux, if_neg hws] at hy
      simp only [List.head?_cons, Option.some.injEq] at hy
      simp [hy]

theorem p5aux_cons_not_ws (c : Char) (rest : List Char) (hws : pyWs c = false) :
    p5aux (c :: rest) = c :: p5aux rest := by
  rw [p5aux, if_neg (by simp [hws])]

theorem p5aux_nil : p5aux [] = [] := by
  rw [p5aux]

theorem p5aux_ws_nil (c : Char) (rest : List Char) (hws : pyWs c = true)
    (hdrop : rest.dropWhile pyWs = []) : p5aux (c :: rest) = [] := by
  rw [p5aux, if_pos hws]
  split
  · rfl
  · rename_i d2 r2 heq
    rw [hdrop] at heq
    cases heq

theorem p5aux_ws_cons (c : Char) (rest : List Char) (hws : pyWs c = true)
    (d : Char) (r : List Char) (hdrop : rest.dropWhile pyWs = d :: r) :
    p5aux (c :: rest) = ' ' :: p5aux (d :: r) := by
  rw [p5aux, if_pos hws]
  split
  · rename_i heq
    rw [hdrop] at heq
    cases heq
  · rename_i d2 r2 heq
    rw [hdrop] at heq
    cases heq
    rfl

theorem p5aux_wsOnlySp (l : List Char) : wsOnlySp (p5aux l) := by
  induction l using p5aux.induct with
  | case1 =>
    intro x hx
    rw [p5aux_nil] at hx
    cases hx
  | case2 c rest hws hdrop =>
    intro x hx
    rw [p5aux_ws_nil c rest hws hdrop] at hx
    cases hx
  | case3 c rest hws d r hdrop ih =>
    intro x hx hwx
    rw [p5aux_ws_cons c rest hws d r hdrop] at hx
    rcases List.mem_cons.mp hx with hx1 | hx2
    · exact hx1
    · exact ih x hx2 hwx
  | case4 c rest hws ih =>
    intro x hx hwx
    rw [p5aux_cons_not_ws c rest (by simpa using hws)] at hx
    rcases List.mem_cons.mp hx with hx1 | hx2
    · subst hx1
      exact absurd hwx (by simpa using hws)
    · exact ih x hx2 hwx

theorem p5aux_noDblSp (l : List Char) : noDblSp (p5aux l) := by
  induction l using p5aux.induct with
  | case1 => rw [noDblSp, p5aux_nil]; simp
  | case2 c rest hws hdrop => rw [noDblSp, p5aux_ws_nil c rest hws hdrop]; simp
  | case3 c rest hws d r hdrop ih =>
    rw [noDblSp, p5aux_ws_cons c rest hws d r hdrop]
    have hd : pyWs d = false := hdDrop_not_ws rest d (by rw [hdrop]; rfl)
    have hdd : p5aux (d :: r) = d :: p5aux r := p5aux_cons_not_ws d r hd
    refine List.chain'_cons'.mpr ⟨?_, ih⟩
    intro y hy
    rw [Option.mem_def, hdd] at hy
    simp only [List.head?_cons, Option.some.injEq] at hy
    subst hy
    intro hand
    rw [hand.2] at hd
    exact absurd hd (by decide)
  | case4 c rest hws ih =>
    have hwc : pyWs c = false := by simpa using hws
    rw [noDblSp, p5aux_cons_not_ws c rest hwc]
    refine List.chain'_cons'.mpr ⟨?_, ih⟩
    intro y hy
    intro hand
    rw [hand.1] at hwc
    exact absurd hwc (by decide)

theorem p5aux_last_not_ws (l : List Char) (y : Char)
    (hy : (p5aux l).getLast? = some y) : pyWs y = false := by
  induction l using p5aux.induct with
  | case1 => rw [p5aux_nil] at hy; cases hy
  | case2 c rest hws hdrop => rw [p5aux_ws_nil c rest hws hdrop] at hy; cases hy
  | case3 c rest hws d r hdrop ih =>
    rw [p5aux_ws_cons c rest hws d r hdrop] at hy
    have hd : pyWs d = false := hdDrop_not_ws rest d (by rw [hdrop]; rfl)
    rw [p5aux_cons_not_ws d r hd, List.getLast?_cons_cons, ← p5aux_cons_not_ws d r hd] at hy
    exact ih hy
  | case4 c rest hws ih =>
    have hwc : pyWs c = false := by simpa using hws
    rw [p5aux_cons_not_ws c rest hwc] at hy
    cases hrest : p5aux rest with
    | nil =>
      rw [hrest] at hy
      simp only [List.getLast?_singleton, Option.some.injEq] at hy
      subst hy
      exact hwc
    | cons z zs =>
      rw [hrest, List.getLast?_cons_cons, ← hrest] at hy
      exact ih hy

theorem p5aux_chain (R : Char → Char → Prop) (hsp1 : ∀ a, R a ' ') (hsp2 : ∀ b, R ' ' b)
    (l : List Char) (h : l.Chain' R) : (p5aux l).Chain' R := by
  induction l using p5aux.induct with
  | case1 => rw [p5aux_nil]; simp
  | case2 c rest hws hdrop => rw [p5aux_ws_nil c rest hws hdrop]; simp
  | case3 c rest hws d r hdrop ih =>
    rw [p5aux_ws_cons c rest hws d r hdrop]
    have hchain : (d :: r).Chain' R := by
      have h1 : rest.Chain' R := (List.chain'_cons'.mp h).2
      exact h1.suffix (hdrop ▸ List.dropWhile_suffix pyWs)
    refine List.chain'_cons'.mpr ⟨fun y _ => hsp2 y, ih hchain⟩
  | case4 c rest hws ih =>
    have hwc : pyWs c = false := by simpa using hws
    rw [p5aux_cons_not_ws c rest hwc]
    refine List.chain'_cons'.mpr ⟨?_, ih (List.chain'_cons'.mp h).2⟩
    intro y hy
    rcases p5aux_head rest y (Option.mem_def.mp hy) with h1 | h2
    · subst h1
      exact hsp1 c
    · exact (List.chain'_cons'.mp h).1 y (Option.mem_def.mpr h2)

theorem pass5_wsOnlySp (l : List Char) : wsOnlySp (pass5 l) :=
  p5aux_wsOnlySp (l.dropWhile pyWs)

theorem pass5_noDblSp (l : List Char) : noDblSp (pass5 l) :=
  p5aux_noDblSp (l.dropWhile pyWs)

theorem pass5_head_not_ws (l : List Char) (y : Char)
    (hy : (pass5 l).head? = some y) : pyWs y = false := by
  unfold pass5 at hy
  cases hd : l.dropWhile pyWs with
  | nil =>
    rw [hd, p5aux_nil] at hy
    cases hy
  | cons d r =>
    have hdws : pyWs d = false := hdDrop_not_ws l d (by rw [hd]; rfl)
    rw [hd, p5aux_cons_not_ws d r hdws] at hy
    simp only [List.head?_cons, Option.some.injEq] at hy
    subst hy
    exact hdws

theorem pass5_last_not_ws (l : List Char) (y : Char)
    (hy : (pass5 l).getLast? = some y) : pyWs y = false :=
  p5aux_last_not_ws (l.dropWhile pyWs) y hy

theorem pass5_chain (R : Char → Char → Prop) (hsp1 : ∀ a, R a ' ') (hsp2 : ∀ b, R ' ' b)
    (l : List Char) (h : l.Chain' R) : (pass5 l).Chain' R :=
  p5aux_chain R hsp1 hsp2 (l.dropWhile pyWs) (h.suffix (List.dropWhile_suffix pyWs))

theorem pass5_cons_sp (l : List Char) : pass5 (' ' :: l) = pass5 l := by
  unfold pass5
  rw [List.dropWhile_cons_of_pos (by decide : pyWs ' ' = true)]

theorem p5aux_fix : ∀ (l : List Char), wsOnlySp l → noDblSp l →
    (∀ y, l.getLast? = some y → pyWs y = false) → p5aux l = l := by
  intro l
  induction l using p5aux.induct with
  | case1 => intro _ _ _; exact p5aux_nil
  | case2 c rest hws hdrop =>
    intro hsp hdb hlast
    have hc : c = ' ' := hsp c (List.mem_cons_self c rest) hws
    cases hrest : rest with
    | nil =>
      have hl2 := hlast c (by rw [hrest]; simp)
      rw [hl2] at hws
      cases hws
    | cons x r2 =>
      have hx : pyWs x = true := by
        by_contra hxx
        rw [hrest, List.dropWhile_cons_of_neg (by simpa using hxx)] at hdrop
        cases hdrop
      have hx2 : x = ' ' :=
        hsp x (by rw [hrest]; exact List.mem_cons_of_mem c (List.mem_cons_self x r2)) hx
      rw [hrest] at hdb
      have hpair := (List.chain'_cons.mp hdb).1
      exact absurd ⟨hc, hx2⟩ hpair
  | case3 c rest hws d r hdrop ih =>
    intro hsp hdb hlast
    have hc : c = ' ' := hsp c (List.mem_cons_self c rest) hws
    cases hrest : rest with
    | nil =>
      rw [hrest] at hdrop
      cases hdrop
    | cons x r2 =>
      have hx : pyWs x = false := by
        by_contra hxx
        simp only [Bool.not_eq_false] at hxx
        have hx2 : x = ' ' :=
          hsp x (by rw [hrest]; exact List.mem_cons_of_mem c (List.mem_cons_self x r2)) hxx
        rw [hrest] at hdb
        exact (List.chain'_cons.mp hdb).1 ⟨hc, hx2⟩
      have hdr : d :: r = rest := by
        rw [← hdrop, hrest, List.dropWhile_cons_of_neg (by simpa using hx)]
      have hih : p5aux (d :: r) = d :: r := by
        apply ih
        · rw [hdr]
          exact wsOnlySp_tail hsp
        · rw [hdr]
          exact noDblSp_tail hdb
        · intro y hy
          apply hlast y
          rw [hdr] at hy
          rw [hrest] at hy ⊢
          rw [List.getLast?_cons_cons]
          exact hy
      rw [← hrest]
      rw [p5aux_ws_cons c rest hws d r hdrop, hih, hdr, hc]
  | case4 c rest hws ih =>
    intro hsp hdb hlast
    rw [p5aux_cons_not_ws c rest (by simpa using hws)]
    congr 1
    apply ih (wsOnlySp_tail hsp) (noDblSp_tail hdb)
    intro y hy
    apply hlast y
    cases hrest : rest with
    | nil =>
      rw [hrest] at hy
      cases hy
    | cons x r2 =>
      rw [hrest] at hy
      rw [List.getLast?_cons_cons]
      exact hy

theorem pass5_eq_self (l : List Char) (hsp : wsOnlySp l) (hdb : noDblSp l)
    (hhead : ∀ y, l.head? = some y → pyWs y = false)
    (hlast : ∀ y, l.getLast? = some y → pyWs y = false) : pass5 l = l := by
  have hdw : l.dropWhile pyWs = l := by
    cases l with
    | nil => rfl
    | cons c rest => rw [List.dropWhile_cons_of_neg (by simp [hhead c rfl])]
  unfold pass5
  rw [hdw]
  exact p5aux_fix l hsp hdb hlast

theorem pyStripL_eq_self (l : List Char)
    (hhead : ∀ y, l.head? = some y → pyWs y = false)
    (hlast : ∀ y, l.getLast? = some y → pyWs y = false) : pyStripL l = l := by
  unfold pyStripL
  have h1 : l.dropWhile pyWs = l := by
    cases l with
    | nil => rfl
    | cons c rest => rw [List.dropWhile_cons_of_neg (by simp [hhead c rfl])]
  rw [h1]
  have h2 : l.reverse.dropWhile pyWs = l.reverse := by
    cases hr : l.reverse with
    | nil => rfl
    | cons c rest =>
      have hlc : l.getLast? = some c := by
        rw [← List.head?_reverse, hr]
        rfl
      rw [List.dropWhile_cons_of_neg (by simp [hlast c hlc])]
  rw [h2, List.reverse_reverse]

/-! #### Pass 4: equations and match characterizations -/

theorem pass4_nil : pass4 [] = [] := by
  rw [pass4]

theorem pass4_some (c : Char) (rest tail : List Char)
    (hm : matchMinus (c :: rest) = some tail) :
    pass4 (c :: rest) = ' ' :: '-' :: pass4 tail := by
  rw [pass4]
  split
  · rename_i t2 heq
    rw [hm] at heq
    cases heq
    rfl
  · rename_i heq
    rw [hm] at heq
    cases heq

theorem pass4_none (c : Char) (rest : List Char)
    (hm : matchMinus (c :: rest) = none) :
    pass4 (c :: rest) = c :: pass4 rest := by
  rw [pass4]
  split
  · rename_i t2 heq
    rw [hm] at heq
    cases heq
  · rfl

theorem matchMinus_some_spec (l tail : List Char) (h : matchMinus l = some tail) :
    (∃ d r2, tail = d :: r2 ∧ isDig d = true) ∧ tail <:+ l := by
  unfold matchMinus at h
  split at h
  · rename_i r heq
    split at h
    · rename_i d rest2 heq2
      split at h
      · rename_i hdig
        cases h
        refine ⟨⟨d, rest2, rfl, hdig⟩, ?_⟩
        have s1 : (d :: rest2) <:+ r := heq2 ▸ List.dropWhile_suffix pyWs
        have s2 : r <:+ '-' :: r := List.suffix_cons '-' r
        have s3 : ('-' :: r) <:+ l := heq ▸ List.dropWhile_suffix pyWs
        exact s1.trans (s2.trans s3)
      · cases h
    · cases h
  · cases h

theorem matchMinus_dash_none (rest : List Char) (hm : matchMinus ('-' :: rest) = none) :
    ¬ wsThenDig rest := by
  rintro ⟨d, hd, hdig⟩
  unfold matchMinus at hm
  rw [List.dropWhile_cons_of_neg (by decide : ¬ pyWs '-' = true)] at hm
  split at hm
  · rename_i r heq
    cases heq
    split at hm
    · rename_i d2 r2 heq2
      rw [heq2] at hd
      simp only [List.head?_cons, Option.some.injEq] at hd
      subst hd
      split at hm
      · cases hm
      · rename_i hnd
        exact absurd hdig (by simpa using hnd)
    · rename_i heq2
      rw [heq2] at hd
      cases hd
  · rename_i hne
    exact absurd rfl (hne rest)

theorem matchMinus_of_dash_digit (rest : List Char) (d : Char) (r2 : List Char)
    (hr : rest = d :: r2) (hdig : isDig d = true) :
    matchMinus ('-' :: rest) = some rest := by
  have h1 : List.dropWhile pyWs (d :: r2) = d :: r2 :=
    List.dropWhile_cons_of_neg (by simp [dig_not_ws d hdig])
  unfold matchMinus
  rw [List.dropWhile_cons_of_neg (by decide : ¬ pyWs '-' = true), hr]
  simp [h1, hdig]

theorem pass4_head (l : List Char) (y : Char) (hy : (pass4 l).head? = some y) :
    y = ' ' ∨ l.head? = some y := by
  cases l with
  | nil =>
    rw [pass4_nil] at hy
    cases hy
  | cons c rest =>
    cases hm : matchMinus (c :: rest) with
    | some tail =>
      rw [pass4_some c rest tail hm] at hy
      simp only [List.head?_cons, Option.some.injEq] at hy
      exact Or.inl hy.symm
    | none =>
      rw [pass4_none c rest hm] at hy
      simp only [List.head?_cons, Option.some.injEq] at hy
      exact Or.inr (by simp [hy])

theorem matchMinus_none_of_head (x : Char) (r : List Char)
    (h1 : pyWs x = false) (h2 : x ≠ '-') : matchMinus (x :: r) = none := by
  unfold matchMinus
  rw [List.dropWhile_cons_of_neg (by simp [h1])]
  split
  · rename_i r2 heq
    injection heq with hx _
    exact absurd hx h2
  · rfl

theorem pass4_chain (R : Char → Char → Prop) (hsp1 : ∀ a, R a ' ') (hsp2 : ∀ b, R ' ' b)
    (hdig : ∀ d, isDig d = true → R '-' d) :
    ∀ (l : List Char), l.Chain' R → (pass4 l).Chain' R := by
  intro l
  induction l using pass4.induct with
  | case1 =>
    intro _
    rw [pass4_nil]
    simp
  | case2 c rest tail hm ih =>
    intro h
    rw [pass4_some c rest tail hm]
    obtain ⟨⟨d, r2, htail, hd⟩, hsuf⟩ := matchMinus_some_spec (c :: rest) tail hm
    have hct : tail.Chain' R := h.suffix hsuf
    refine List.chain'_cons'.mpr ⟨fun y _ => hsp2 y, List.chain'_cons'.mpr ⟨?_, ih hct⟩⟩
    intro y hy
    rcases pass4_head tail y (Option.mem_def.mp hy) with h1 | h2
    · subst h1
      exact hsp1 '-'
    · rw [htail] at h2
      simp only [List.head?_cons, Option.some.injEq] at h2
      subst h2
      exact hdig d hd
  | case3 c rest hm ih =>
    intro h
    rw [pass4_none c rest hm]
    refine List.chain'_cons'.mpr ⟨?_, ih (List.chain'_cons'.mp h).2⟩
    intro y hy
    rcases pass4_head rest y (Option.mem_def.mp hy) with h1 | h2
    · subst h1
      exact hsp1 c
    · exact (List.chain'_cons'.mp h).1 y (Option.mem_def.mpr h2)

theorem pass4_wsThenDig : ∀ (l : List Char), wsThenDig (pass4 l) → wsThenDig l := by
  intro l
  induction l using pass4.induct with
  | case1 =>
    rw [pass4_nil]
    exact id
  | case2 c rest tail hm ih =>
    rw [pass4_some c rest tail hm]
    rintro ⟨d, hd, hdig⟩
    rw [List.dropWhile_cons_of_pos (by decide : pyWs ' ' = true),
        List.dropWhile_cons_of_neg (by decide : ¬ pyWs '-' = true)] at hd
    simp only [List.head?_cons, Option.some.injEq] at hd
    subst hd
    exact absurd hdig (by decide)
  | case3 c rest hm ih =>
    rw [pass4_none c rest hm]
    rintro ⟨d, hd, hdig⟩
    by_cases hws : pyWs c = true
    · rw [List.dropWhile_cons_of_pos hws] at hd
      obtain ⟨d2, hd2, hdig2⟩ := ih ⟨d, hd, hdig⟩
      refine ⟨d2, ?_, hdig2⟩
      rw [List.dropWhile_cons_of_pos hws]
      exact hd2
    · rw [List.dropWhile_cons_of_neg hws] at hd
      simp only [List.head?_cons, Option.some.injEq] at hd
      subst hd
      refine ⟨c, ?_, hdig⟩
      rw [List.dropWhile_cons_of_neg hws]
      rfl

theorem G_pass4 : ∀ (l : List Char) (p : Option Char), G p (pass4 l) := by
  intro l
  induction l using pass4.induct with
  | case1 =>
    intro p
    rw [pass4_nil]
    exact trivial
  | case2 c rest tail hm ih =>
    intro p
    rw [pass4_some c rest tail hm]
    obtain ⟨⟨d, r2, htail, hdig⟩, _⟩ := matchMinus_some_spec (c :: rest) tail hm
    have hpt : pass4 tail = d :: pass4 r2 := by
      rw [htail]
      exact congrArg pass4 rfl ▸ pass4_none d r2
        (matchMinus_none_of_head d r2 (dig_not_ws d hdig)
          (by intro hde; rw [hde] at hdig; exact absurd hdig (by decide)))
    refine ⟨fun hc => absurd hc (by decide), ?_, ih (some '-')⟩
    intro _
    constructor
    · intro d3 hd3 hdig3
      exact Or.inr ⟨' ', rfl, by decide⟩
    · intro w r3 hw hwsw
      rw [hpt] at hw
      injection hw with hw1 _
      rw [← hw1] at hwsw
      rw [dig_not_ws d hdig] at hwsw
      cases hwsw
  | case3 c rest hm ih =>
    intro p
    rw [pass4_none c rest hm]
    refine ⟨?_, ih (some c)⟩
    intro hc
    subst hc
    have hnwtd : ¬ wsThenDig rest := matchMinus_dash_none rest hm
    constructor
    · intro d hd hdig
      exfalso
      rcases pass4_head rest d hd with h1 | h2
      · subst h1
        exact absurd hdig (by decide)
      · apply hnwtd
        refine ⟨d, ?_, hdig⟩
        cases rest with
        | nil => cases h2
        | cons x rr =>
          simp only [List.head?_cons, Option.some.injEq] at h2
          subst h2
          rw [List.dropWhile_cons_of_neg (by simp [dig_not_ws _ hdig])]
          rfl
    · intro w r3 hw hwsw hwtd
      apply hnwtd
      apply pass4_wsThenDig rest
      rw [hw]
      obtain ⟨d4, hd4, hdig4⟩ := hwtd
      refine ⟨d4, ?_, hdig4⟩
      rw [List.dropWhile_cons_of_pos hwsw]
      exact hd4

theorem G_skip_ws : ∀ (rest : List Char) (w : Char), pyWs w = true → G (some w) rest →
    ∃ w2, pyWs w2 = true ∧ G (some w2) (rest.dropWhile pyWs) := by
  intro rest
  induction rest with
  | nil =>
    intro w hw _
    exact ⟨w, hw, trivial⟩
  | cons x r2 ih =>
    intro w hw hG
    by_cases hx : pyWs x = true
    · rw [List.dropWhile_cons_of_pos hx]
      exact ih x hx (G_tail hG)
    · rw [List.dropWhile_cons_of_neg hx]
      exact ⟨w, hw, hG⟩

theorem p5aux_sp_shape (l : List Char) (out2 : List Char)
    (h : p5aux l = ' ' :: out2) :
    ∃ w r2 d r3, l = w :: r2 ∧ pyWs w = true ∧ r2.dropWhile pyWs = d :: r3 ∧
      out2 = p5aux (d :: r3) ∧ pyWs d = false := by
  cases l with
  | nil =>
    rw [p5aux_nil] at h
    cases h
  | cons c rest =>
    by_cases hws : pyWs c = true
    · cases hdrop : rest.dropWhile pyWs with
      | nil =>
        rw [p5aux_ws_nil c rest hws hdrop] at h
        cases h
      | cons d r3 =>
        rw [p5aux_ws_cons c rest hws d r3 hdrop] at h
        injection h with _ h2
        exact ⟨c, rest, d, r3, rfl, hws, hdrop, h2.symm,
          hdDrop_not_ws rest d (by rw [hdrop]; rfl)⟩
    · rw [p5aux_cons_not_ws c rest (by simpa using hws)] at h
      injection h with h1 _
      rw [h1] at hws
      exact absurd (by decide : pyWs ' ' = true) hws

theorem S4_p5aux : ∀ (l : List Char) (p q : Option Char), G p l →
    ((q = p ∧ ∀ w, p = some w → pyWs w = false) ∨ q = some ' ') →
    S4 q (p5aux l) := by
  intro l
  induction l using p5aux.induct with
  | case1 =>
    intro p q _ _
    rw [p5aux_nil]
    exact trivial
  | case2 c rest hws hdrop =>
    intro p q _ _
    rw [p5aux_ws_nil c rest hws hdrop]
    exact trivial
  | case3 c rest hws d r hdrop ih =>
    intro p q hG _
    rw [p5aux_ws_cons c rest hws d r hdrop]
    refine ⟨fun hc => absurd hc (by decide), ?_⟩
    obtain ⟨w2, hw2, hG2⟩ := G_skip_ws rest c hws (G_tail hG)
    rw [hdrop] at hG2
    exact ih (some w2) (some ' ') hG2 (Or.inr rfl)
  | case4 c rest hws ih =>
    intro p q hG hrel
    have hwc : pyWs c = false := by simpa using hws
    rw [p5aux_cons_not_ws c rest hwc]
    refine ⟨?_, ?_⟩
    · intro hc
      subst hc
      have hGA := (hG.1 rfl).1
      have hGB := (hG.1 rfl).2
      constructor
      · intro d2 hd2 hdig2
        rcases p5aux_head rest d2 hd2 with h1 | h2
        · subst h1
          exact absurd hdig2 (by decide)
        · have hp := hGA d2 h2 hdig2
          rcases hrel with ⟨hqp, hnws⟩ | hq
          · rcases hp with hp1 | ⟨w3, hp3, hw3⟩
            · exact Or.inl (hqp.trans hp1)
            · rw [hnws w3 hp3] at hw3
              cases hw3
          · exact Or.inr hq
      · intro d2 r2 hsp
        by_contra hdd
        simp only [Bool.not_eq_false] at hdd
        obtain ⟨w4, r4, d5, r5, hrest4, hw4, hdrop4, hout4, hd5⟩ :=
          p5aux_sp_shape rest (d2 :: r2) hsp
        rw [p5aux_cons_not_ws d5 r5 hd5] at hout4
        injection hout4 with ho1 _
        apply hGB w4 r4 hrest4 hw4
        refine ⟨d5, ?_, by rw [← ho1]; exact hdd⟩
        rw [hdrop4]
        rfl
    · refine ih (some c) (some c) (G_tail hG) (Or.inl ⟨rfl, ?_⟩)
      intro w hw
      injection hw with hw2
      rw [← hw2]
      exact hwc

theorem S4_pass5 (v : List Char) (hG : G none v) : ∃ q, S4 q (pass5 v) := by
  unfold pass5
  cases v with
  | nil =>
    refine ⟨none, ?_⟩
    rw [List.dropWhile_nil, p5aux_nil]
    exact trivial
  | cons c rest =>
    by_cases hws : pyWs c = true
    · rw [List.dropWhile_cons_of_pos hws]
      obtain ⟨w2, hw2, hG2⟩ := G_skip_ws rest c hws (G_tail hG)
      exact ⟨some ' ', S4_p5aux (rest.dropWhile pyWs) (some w2) (some ' ') hG2 (Or.inr rfl)⟩
    · rw [List.dropWhile_cons_of_neg hws]
      refine ⟨none, S4_p5aux (c :: rest) none none hG (Or.inl ⟨rfl, ?_⟩)⟩
      intro w hw
      cases hw

theorem wsOnlySp_suffix {s l : List Char} (hsuf : s <:+ l) (hsp : wsOnlySp l) :
    wsOnlySp s :=
  fun x hx hw => hsp x (hsuf.sublist.subset hx) hw

theorem noDblSp_suffix {s l : List Char} (hsuf : s <:+ l) (hdb : noDblSp l) :
    noDblSp s :=
  List.Chain'.suffix hdb hsuf

theorem wsRun_small (l : List Char) (hsp : wsOnlySp l) (hdb : noDblSp l) :
    l.takeWhile pyWs = [] ∨ l.takeWhile pyWs = [' '] := by
  cases l with
  | nil => exact Or.inl rfl
  | cons c r =>
    by_cases hc : pyWs c = true
    · have hc2 : c = ' ' := hsp c (List.mem_cons_self c r) hc
      right
      rw [List.takeWhile_cons_of_pos hc]
      cases r with
      | nil => rw [hc2]; rfl
      | cons x r2 =>
        by_cases hx : pyWs x = true
        · have hx2 : x = ' ' :=
            hsp x (List.mem_cons_of_mem c (List.mem_cons_self x r2)) hx
          exact absurd ⟨hc2, hx2⟩ ((List.chain'_cons.mp hdb).1)
        · rw [List.takeWhile_cons_of_neg hx, hc2]
    · exact Or.inl (List.takeWhile_cons_of_neg hc)

theorem matchMinus_sp_cons (l : List Char) : matchMinus (' ' :: l) = matchMinus l := by
  unfold matchMinus
  rw [List.dropWhile_cons_of_pos (by decide : pyWs ' ' = true)]

theorem matchMinus_some_decomp (l tail : List Char) (h : matchMinus l = some tail) :
    ∃ rB, l.dropWhile pyWs = '-' :: rB ∧ rB.dropWhile pyWs = tail ∧
      ∃ d r2, tail = d :: r2 ∧ isDig d = true := by
  unfold matchMinus at h
  split at h
  · rename_i r heq
    split at h
    · rename_i d rest2 heq2
      split at h
      · rename_i hdig
        cases h
        exact ⟨r, heq, heq2, d, rest2, rfl, hdig⟩
      · cases h
    · cases h
  · cases h

theorem pass4_stable :
    ∀ (l : List Char) (p : Option Char), S4 p l → wsOnlySp l → noDblSp l →
      pass4 l = l ∨ ∃ d r2, l = '-' :: d :: r2 ∧ isDig d = true ∧ pass4 l = ' ' :: l := by
  intro l
  induction l using pass4.induct with
  | case1 =>
    intro p _ _ _
    exact Or.inl pass4_nil
  | case2 c rest tail hm ih =>
    intro p hS hsp hdb
    obtain ⟨rB, hdw, hrB, d, r2, htail, hdig⟩ := matchMinus_some_decomp (c :: rest) tail hm
    have htailsuf : tail <:+ (c :: rest) := (matchMinus_some_spec (c :: rest) tail hm).2
    have hrBsuf : rB <:+ (c :: rest) :=
      (List.suffix_cons '-' rB).trans (hdw ▸ List.dropWhile_suffix pyWs)
    have hA := wsRun_small (c :: rest) hsp hdb
    have hB := wsRun_small rB (wsOnlySp_suffix hrBsuf hsp) (noDblSp_suffix hrBsuf hdb)
    have hldecomp : c :: rest = (c :: rest).takeWhile pyWs ++ '-' :: rB := by
      have h2 := @List.takeWhile_append_dropWhile _ pyWs (c :: rest)
      rw [hdw] at h2
      exact h2.symm
    have hrBdecomp : rB = rB.takeWhile pyWs ++ tail := by
      have h2 := @List.takeWhile_append_dropWhile _ pyWs rB
      rw [hrB] at h2
      exact h2.symm
    have hspT : wsOnlySp tail := wsOnlySp_suffix htailsuf hsp
    have hdbT : noDblSp tail := noDblSp_suffix htailsuf hdb
    have hd_ne : d ≠ '-' := by
      intro hd2
      rw [hd2] at hdig
      exact absurd hdig (by decide)
    rcases hB with hB0 | hB1
    · have hrBt : rB = tail := by
        rw [hrBdecomp, hB0]
        rfl
      rcases hA with hA0 | hA1
      · have hl : c :: rest = '-' :: tail := by
          rw [hldecomp, hA0, hrBt]
          rfl
        rw [hl] at hS
        rcases ih (some '-') (S4_tail hS) hspT hdbT with hih1 | ⟨d9, r9, hde, _, _⟩
        · right
          refine ⟨d, r2, by rw [hl, htail], hdig, ?_⟩
          rw [pass4_some c rest tail hm, hih1, hl]
        · rw [htail] at hde
          injection hde with hde1 _
          exact absurd hde1 hd_ne
      · have hl : c :: rest = ' ' :: '-' :: tail := by
          rw [hldecomp, hA1, hrBt]
          rfl
        rw [hl] at hS
        rcases ih (some '-') (S4_tail (S4_tail hS)) hspT hdbT with hih1 | ⟨d9, r9, hde, _, _⟩
        · left
          rw [pass4_some c rest tail hm, hih1, hl]
        · rw [htail] at hde
          injection hde with hde1 _
          exact absurd hde1 hd_ne
    · exfalso
      have hrBt : rB = ' ' :: tail := by
        rw [hrBdecomp, hB1]
        rfl
      rcases hA with hA0 | hA1
      · have hl : c :: rest = '-' :: ' ' :: tail := by
          rw [hldecomp, hA0, hrBt]
          rfl
        rw [hl, htail] at hS
        have hB4 := (hS.1 rfl).2 d r2 rfl
        rw [hdig] at hB4
        cases hB4
      · have hl : c :: rest = ' ' :: '-' :: ' ' :: tail := by
          rw [hldecomp, hA1, hrBt]
          rfl
        rw [hl, htail] at hS
        have hB4 := ((S4_tail hS).1 rfl).2 d r2 rfl
        rw [hdig] at hB4
        cases hB4
  | case3 c rest hm ih =>
    intro p hS hsp hdb
    rcases ih (some c) (S4_tail hS) (wsOnlySp_tail hsp) (noDblSp_tail hdb) with
      hih1 | ⟨d, r2, hre, hdig, _⟩
    · left
      rw [pass4_none c rest hm, hih1]
    · exfalso
      have hs4r := S4_tail hS
      rw [hre] at hs4r
      have hc := (hs4r.1 rfl).1 d rfl hdig
      rcases hc with hc1 | hc2
      · cases hc1
      · injection hc2 with hc3
        have hcomp : matchMinus (c :: rest) = some (d :: r2) := by
          rw [hc3, hre, matchMinus_sp_cons]
          exact matchMinus_of_dash_digit (d :: r2) d r2 rfl hdig
        rw [hcomp] at hm
        cases hm

theorem sp_not_let : isLet ' ' = false := by decide

theorem letDig_sp_left (b : Char) : letDig ' ' b = false := by
  simp [letDig, (by decide : isDig ' ' = false), sp_not_let]

theorem letDig_sp_right (a : Char) : letDig a ' ' = false := by
  simp [letDig, (by decide : isDig ' ' = false), sp_not_let]

theorem letDig_dash_left (d : Char) : letDig '-' d = false := by
  simp [letDig, (by decide : isDig '-' = false), (by decide : isLet '-' = false)]

/-- Claim C9: the Hermann-Mauguin spacing expansion `_to_tcod_format` is
idempotent — applying it to any of its own outputs (indeed re-applying it to
the result for any input string whatsoever) returns the same string. -/
theorem tcod_expand_idempotent (s : String) :
    _to_tcod_format (_to_tcod_format s) = _to_tcod_format s := by
  unfold _to_tcod_format
  have hRLL1 : ∀ a : Char, ¬(isLet a = true ∧ isLet ' ' = true) :=
    fun _ h => absurd h.2 (by decide)
  have hRLL2 : ∀ b : Char, ¬(isLet ' ' = true ∧ isLet b = true) :=
    fun _ h => absurd h.1 (by decide)
  have hRLL3 : ∀ d : Char, isDig d = true → ¬(isLet '-' = true ∧ isLet d = true) :=
    fun _ _ h => absurd h.1 (by decide)
  have hLLu : noLL (pass3 (pass2 (pass1 (pyStripL s.data)))) :=
    pass3_preserves_noLL _ (noLL_pass2 _)
  have hLL4 : noLL (pass4 (pass3 (pass2 (pass1 (pyStripL s.data))))) :=
    pass4_chain _ hRLL1 hRLL2 hRLL3 _ hLLu
  have hLLt : noLL (pass5 (pass4 (pass3 (pass2 (pass1 (pyStripL s.data)))))) :=
    pass5_chain _ hRLL1 hRLL2 _ hLL4
  have hLDu : noLD (pass3 (pass2 (pass1 (pyStripL s.data)))) := noLD_pass3 _
  have hLD4 : noLD (pass4 (pass3 (pass2 (pass1 (pyStripL s.data))))) :=
    pass4_chain _ (fun a => letDig_sp_right a) (fun b => letDig_sp_left b)
      (fun d _ => letDig_dash_left d) _ hLDu
  have hLDt : noLD (pass5 (pass4 (pass3 (pass2 (pass1 (pyStripL s.data)))))) :=
    pass5_chain _ (fun a => letDig_sp_right a) (fun b => letDig_sp_left b) _ hLD4
  have hsp : wsOnlySp (pass5 (pass4 (pass3 (pass2 (pass1 (pyStripL s.data)))))) :=
    pass5_wsOnlySp _
  have hdb : noDblSp (pass5 (pass4 (pass3 (pass2 (pass1 (pyStripL s.data)))))) :=
    pass5_noDblSp _
  have hhead : ∀ y, (pass5 (pass4 (pass3 (pass2 (pass1 (pyStripL s.data)))))).head? = some y →
      pyWs y = false := fun y hy => pass5_head_not_ws _ y hy
  have hlast : ∀ y, (pass5 (pass4 (pass3 (pass2 (pass1 (pyStripL s.data)))))).getLast? = some y →
      pyWs y = false := fun y hy => pass5_last_not_ws _ y hy
  obtain ⟨q, hS4⟩ := S4_pass5 (pass4 (pass3 (pass2 (pass1 (pyStripL s.data)))))
    (G_pass4 _ none)
  have h5 : pass5 (pass4 (pass5 (pass4 (pass3 (pass2 (pass1 (pyStripL s.data))))))) =
      pass5 (pass4 (pass3 (pass2 (pass1 (pyStripL s.data))))) := by
    rcases pass4_stable _ q hS4 hsp hdb with h4 | ⟨d, r2, _, _, h4⟩
    · rw [h4]
      exact pass5_eq_self _ hsp hdb hhead hlast
    · rw [h4, pass5_cons_sp]
      exact pass5_eq_self _ hsp hdb hhead hlast
  show String.mk (pass5 (pass4 (pass3 (pass2 (pass1
      (pyStripL (pass5 (pass4 (pass3 (pass2 (pass1 (pyStripL s.data)))))))))))) = _
  rw [pyStripL_eq_self _ hhead hlast, pass1_fix _ hLLt, pass2_fix _ hLLt, pass3_fix _ hLDt, h5]
